import Mathlib

/-!
Shallow embedding of the return-series and drawdown-segmentation pipeline of
quantstats `stats.py`, together with proofs settling the frozen claims about it.

Series are modelled as `List ℚ` (float values as rationals) indexed by their
position; a position plays the role of the (daily) timestamp label of the
pandas index, so label-based slicing `series[a:b]` (inclusive of both
endpoints for a date index) becomes the inclusive slice of positions `a..b`.
External library functions that are not part of the repository (scipy's
`norm.ppf`, pandas `Series.std`) enter the embedding as opaque function
parameters; the quantities the claims speak about (means, filters, quantile
interpolation) are modelled concretely.

The irrational parts of the code (`sqrt`-based statistics in
`autocorr_penalty`, `sharpe`, `sortino`) are modelled over `ℝ`.
-/

namespace QuantStats

/-- First-occurrence-respecting minimum of a list of rationals, `none` on the
empty list: models the pandas `.min()`, which yields NaN on an empty window. -/
def listMin? : List ℚ → Option ℚ
  | [] => none
  | x :: xs =>
    some (match listMin? xs with
      | none => x
      | some m => min x m)

/-- Arithmetic mean, `.mean()`; junk value `0` on the empty list (the code paths
modelled below guard every use on a non-empty argument). -/
def listMean (l : List ℚ) : ℚ := l.sum / l.length

/-- Running products, the pandas `.cumprod()`. -/
def cumprod (l : List ℚ) : List ℚ := (l.scanl (· * ·) 1).tail

/-- Model of `compsum(returns)` (stats.py line 44): `returns.add(1).cumprod() - 1`. -/
def compsum (returns : List ℚ) : List ℚ := (cumprod (returns.map (· + 1))).map (· - 1)

/-- Model of `comp(returns)` (stats.py line 49): `returns.add(1).prod() - 1`. -/
def comp (returns : List ℚ) : ℚ := (returns.map (· + 1)).prod - 1

/-- Running maximum, `np.maximum.accumulate` / `.expanding(min_periods=0).max()`. -/
def runningMax : List ℚ → List ℚ
  | [] => []
  | x :: xs => x :: (runningMax xs).map (fun y => max x y)

/-- The drawdown series of a price list (stats.py lines 760-761):
`prices / np.maximum.accumulate(prices) - 1`, then
`.replace([inf, -inf, -0], 0)`.  Over `ℚ` no infinities arise and `-0 = 0`, so
the replacement step only normalizes exact zeros (a no-op on rationals), kept
for fidelity to the source line. -/
def ddOfPrices (prices : List ℚ) : List ℚ :=
  (List.zipWith (fun p m => p / m - 1) prices (runningMax prices)).map
    (fun x => if x = 0 then 0 else x)

/-- Modelled from the spec: `_utils._prepare_prices` is not under `src/`.  On a
returns series the spec's EquityCurveBuilder builds the equity curve as the
running product of `(1+r)`; the code's base-price scaling constant cancels in
the drawdown quotient, so base 1 is used. -/
def prepare_prices (returns : List ℚ) : List ℚ := cumprod (returns.map (fun r => 1 + r))

/-- Model of `to_drawdown_series(returns)` (stats.py lines 757-761) for a returns input. -/
def to_drawdown_series (returns : List ℚ) : List ℚ := ddOfPrices (prepare_prices returns)

/-- Modelled from the spec: on an already-price (strictly positive) series the
preparation step returns the series unchanged, so `to_drawdown_series` over
prices reduces to `ddOfPrices` applied to the prices themselves. -/
def to_drawdown_series_prices (prices : List ℚ) : List ℚ := ddOfPrices prices

/-- Model of `max_drawdown(prices)` (stats.py lines 751-754):
`(prices / prices.expanding(min_periods=0).max()).min() - 1`, for an
already-prepared price series (see `to_drawdown_series_prices`). -/
def max_drawdown (prices : List ℚ) : Option ℚ :=
  (listMin? (List.zipWith (fun p m => p / m) prices (runningMax prices))).map (· - 1)

/-- Underwater mask: `~no_dd` where `no_dd = (drawdown == 0)` (stats.py line 772).
Out-of-range positions read the default `0`, hence are not underwater. -/
def uw (dd : List ℚ) (i : ℕ) : Bool := if dd.getD i 0 = 0 then false else true

/-- Detected episode starts (stats.py lines 775-776): positions `i` with
`~no_dd[i] & no_dd[i-1]`; position `0` is never selected because the shifted
mask is missing there. -/
def startIdx (dd : List ℚ) : List ℕ :=
  (List.range dd.length).filter (fun i => decide (1 ≤ i) && uw dd i && !uw dd (i - 1))

/-- Detected episode ends (stats.py lines 779-780): positions `i` with
`no_dd[i] & (~no_dd)[i-1]`. -/
def endIdx (dd : List ℚ) : List ℕ :=
  (List.range dd.length).filter (fun i => decide (1 ≤ i) && !uw dd i && uw dd (i - 1))

/-- The `(start, end)` pairs built by `_drawdown_details` (stats.py lines
783-799): empty when no start is detected; otherwise the series' first
position is prepended to `starts` when `ends` is non-empty with
`starts[0] > ends[0]`, and the last position is appended to `ends` when `ends`
is empty or `starts[-1] > ends[-1]`; finally starts and ends are paired off in
order.  (The python loop indexes `ends[i]` for every start and would raise if
`ends` ran short; that situation is unreachable, and `zip` pairs the same
elements on every reachable input.)

`fixS` is the `starts.insert(0, drawdown.index[0])` fix-up (stats.py lines
788-790), applied when `ends` is non-empty: prepend position 0 when
`starts[0] > ends[0]`. -/
def fixS (a : ℕ) (rest : List ℕ) (e : ℕ) : List ℕ :=
  if e < a then 0 :: a :: rest else a :: rest

/-- The `ends.append(drawdown.index[-1])` fix-up (stats.py lines 792-794),
applied when `ends` is non-empty: append the last position when
`starts[-1] > ends[-1]`. -/
def fixE (n : ℕ) (starts1 : List ℕ) (e : ℕ) (es : List ℕ) : List ℕ :=
  if (e :: es).getLastD 0 < starts1.getLastD 0 then (e :: es) ++ [n - 1] else (e :: es)

/-- The `(start, end)` position pairs that `_drawdown_details` iterates over,
assembled from `startIdx`, `endIdx`, `fixS` and `fixE` as in stats.py lines
783-799. -/
def episodes (dd : List ℚ) : List (ℕ × ℕ) :=
  match startIdx dd, endIdx dd with
  | [], _ => []
  | a :: rest, [] => (a :: rest).zip [dd.length - 1]
  | a :: rest, e :: es =>
    (fixS a rest e).zip (fixE dd.length (fixS a rest e) e es)

/-- Reference left-to-right episode scanner used to reason about `episodes`:
state = (closed episodes, currently open start). -/
def refGo : ℕ → List ℚ → List (ℕ × ℕ) × Option ℕ → List (ℕ × ℕ) × Option ℕ
  | _, [], st => st
  | i, x :: xs, (c, none) => refGo (i + 1) xs (if x = 0 then (c, none) else (c, some i))
  | i, x :: xs, (c, some s) =>
    refGo (i + 1) xs (if x = 0 then (c ++ [(s, i)], none) else (c, some s))

/-- Run the reference scanner over a whole drawdown series. -/
def refFold (dd : List ℚ) : List (ℕ × ℕ) × Option ℕ := refGo 0 dd ([], none)

/-- Episodes according to the reference scanner: an episode still open at the
end of the series is closed at the last position. -/
def episodesRef (dd : List ℚ) : List (ℕ × ℕ) :=
  match refFold dd with
  | (c, none) => c
  | (c, some s) => c ++ [(s, dd.length - 1)]

/-- The open-episode state as a (zero- or one-element) list of start positions. -/
def curToList : Option ℕ → List ℕ
  | none => []
  | some s => [s]

/-- The synthesized final episode, if one is still open: closing at `n - 1`. -/
def synthTail (n : ℕ) : Option ℕ → List (ℕ × ℕ)
  | none => []
  | some s => [(s, n - 1)]

/-- Invariant tying the state of the reference scanner over a drawdown series
to the transition positions `startIdx`/`endIdx` the code extracts: the closed
episodes carry exactly the detected ends; the episode starts (plus the open
start, if any) are the detected starts, preceded by position 0 when the series
begins underwater; episodes are disjoint, ordered, lie inside the series, are
underwater on `[start, end)` with an at-high position at `end` and (except at
position 0) just before `start`; and every underwater position lies in a
closed episode or after the open start. -/
structure RefInv (dd : List ℚ) (st : List (ℕ × ℕ) × Option ℕ) : Prop where
  ends_eq : endIdx dd = st.1.map Prod.snd
  starts_eq : st.1.map Prod.fst ++ curToList st.2 =
    (if uw dd 0 = true then 0 :: startIdx dd else startIdx dd)
  cur_none : st.2 = none → 0 < dd.length → uw dd (dd.length - 1) = false
  cur_some : ∀ s, st.2 = some s → s < dd.length ∧ (s = 0 ∨ uw dd (s - 1) = false) ∧
    ∀ t, s ≤ t → t < dd.length → uw dd t = true
  closed : ∀ p ∈ st.1, p.1 < p.2 ∧ p.2 < dd.length ∧ (p.1 = 0 ∨ uw dd (p.1 - 1) = false) ∧
    uw dd p.2 = false ∧ ∀ t, p.1 ≤ t → t < p.2 → uw dd t = true
  ordered : List.Pairwise (fun p q => p.2 < q.1) st.1
  cur_gt : ∀ s, st.2 = some s → ∀ p ∈ st.1, p.2 < s
  cover : ∀ t, t < dd.length → uw dd t = true →
    (∃ p ∈ st.1, p.1 ≤ t ∧ t < p.2) ∨ (∃ s, st.2 = some s ∧ s ≤ t)

/-- The pandas `Series.quantile(q)` with the default linear interpolation:
position `q * (n-1)` interpolated between the two neighbouring order
statistics of the sorted values. -/
def seriesQuantile (l : List ℚ) (q : ℚ) : ℚ :=
  let sorted := l.insertionSort (· ≤ ·)
  let pos : ℚ := q * ((l.length : ℚ) - 1)
  let lo := (Int.floor pos).toNat
  let hi := (Int.ceil pos).toNat
  sorted.getD lo 0 + (pos - (lo : ℚ)) * (sorted.getD hi 0 - sorted.getD lo 0)

/-- Model of `remove_outliers(returns, quantile)` (stats.py lines 118-120):
`returns[returns < returns.quantile(quantile)]`. -/
def remove_outliers (returns : List ℚ) (quantile : ℚ) : List ℚ :=
  returns.filter (fun r => if r < seriesQuantile returns quantile then true else false)

/-- The label-based window slice `drawdown[starts[i]:ends[i]]` (stats.py line
799): inclusive of both endpoints for a date-label index. -/
def ddSlice (dd : List ℚ) (s e : ℕ) : List ℚ := (dd.drop s).take (e + 1 - s)

/-- Offset of the first minimum inside a window (`Series.idxmin`, first
occurrence); junk `0` on an empty window where pandas would raise. -/
def idxminIn (w : List ℚ) : ℕ :=
  match listMin? w with
  | none => 0
  | some m => w.findIdx (fun v => if v = m then true else false)

/-- One row of the `_drawdown_details` result frame (stats.py lines 801-803):
start, valley, end positions, whole-day duration, max drawdown and 99%-trimmed
max drawdown (both scaled by 100). -/
structure DrawdownRow where
  start : ℕ
  valley : ℕ
  stop : ℕ
  days : ℕ
  maxDrawdown : Option ℚ
  maxDrawdown99 : Option ℚ
deriving Repr, DecidableEq

/-- Build one detail row for an episode window (stats.py lines 799-803):
`dd = drawdown[start:end]`, `clean_dd = -remove_outliers(-dd, .99)`, row =
`(start, dd.idxmin(), end, (end-start).days, dd.min()*100, clean_dd.min()*100)`. -/
def mkRow (dd : List ℚ) (p : ℕ × ℕ) : DrawdownRow :=
  let w := ddSlice dd p.1 p.2
  let clean := (remove_outliers (w.map (fun v => -v)) (99 / 100)).map (fun v => -v)
  { start := p.1
    valley := p.1 + idxminIn w
    stop := p.2
    days := p.2 - p.1
    maxDrawdown := (listMin? w).map (· * 100)
    maxDrawdown99 := (listMin? clean).map (· * 100) }

/-- Model of `_drawdown_details` for a single series (stats.py lines 770-817), keeping
the numeric fields (the date-formatting of the start/valley/end columns is
presentation only). -/
def drawdown_details (dd : List ℚ) : List DrawdownRow :=
  (episodes dd).map (mkRow dd)

/-- The trimmed minimum the *spec* describes for the 99% max-drawdown column
(claim C3): drop the window values whose negation falls outside the Tukey
fences `[Q1 - 1.5 IQR, Q3 + 1.5 IQR]` of the negated window, then take the
minimum, scaled by 100.  This follows the spec's words, for comparison with
the code's `remove_outliers`-based column. -/
def iqrFenceTrimmedMin (w : List ℚ) : Option ℚ :=
  let nw := w.map (fun v => -v)
  let q1 := seriesQuantile nw (1 / 4)
  let q3 := seriesQuantile nw (3 / 4)
  let iqr := q3 - q1
  (listMin? (w.filter (fun v =>
      if q1 - 3 / 2 * iqr ≤ -v ∧ -v ≤ q3 + 3 / 2 * iqr then true else false))).map (· * 100)

/-- Model of `value_at_risk(returns, sigma, confidence)` (stats.py lines 605-618) with
`prepare_returns=False`: `mu = returns.mean()`, `sigma *= returns.std()`,
confidence levels above 1 are divided by 100 once, and the result is
`norm.ppf(1-confidence, mu, sigma)`.  The external scipy quantile `ppf` and
the pandas `std` enter as opaque function parameters. -/
def value_at_risk (ppf : ℚ → ℚ → ℚ → ℚ) (std : List ℚ → ℚ)
    (returns : List ℚ) (sigma confidence : ℚ) : ℚ :=
  let mu := listMean returns
  let scaled := sigma * std returns
  let conf := if 1 < confidence then confidence / 100 else confidence
  ppf (1 - conf) mu scaled

/-- Model of `conditional_value_at_risk` (stats.py lines 626-636) with
`prepare_returns=False`: the mean of the returns strictly below the VaR value,
falling back to the VaR value itself when that slice is empty (the numpy mean
of an empty slice is NaN, which the code's `isnan` check intercepts). -/
def conditional_value_at_risk (ppf : ℚ → ℚ → ℚ → ℚ) (std : List ℚ → ℚ)
    (returns : List ℚ) (sigma confidence : ℚ) : ℚ :=
  let v := value_at_risk ppf std returns sigma confidence
  let below := returns.filter (fun r => if r < v then true else false)
  if below.isEmpty then v else listMean below

noncomputable section
open Classical

/-- Arithmetic mean over `ℝ` (numpy `.mean()`). -/
def rMean (l : List ℝ) : ℝ := l.sum / l.length

/-- Sum of squared deviations from the mean. -/
def rSqDevs (l : List ℝ) : ℝ := (l.map (fun x => (x - rMean l) ^ 2)).sum

/-- The signed Pearson correlation `np.corrcoef(x, y)[0, 1]`:
`Σ (x-x̄)(y-ȳ) / sqrt(Σ(x-x̄)² Σ(y-ȳ)²)`. -/
def pearson (x y : List ℝ) : ℝ :=
  (List.zipWith (fun a b => (a - rMean x) * (b - rMean y)) x y).sum /
    Real.sqrt (rSqDevs x * rSqDevs y)

/-- Model of `autocorr_penalty(returns)` (stats.py lines 258-270):
`coef = abs(corrcoef(returns[:-1], returns[1:])[0,1])`,
`corr = [((num-x)/num) * coef**x for x in range(1, num)]`,
result `sqrt(1 + 2*sum(corr))`. -/
def autocorr_penalty (returns : List ℝ) : ℝ :=
  let num := returns.length
  let coef := |pearson returns.dropLast returns.tail|
  let corr := (List.range' 1 (num - 1)).map
    (fun x => ((num - x : ℕ) : ℝ) / (num : ℝ) * coef ^ x)
  Real.sqrt (1 + 2 * corr.sum)

/-- Sample standard deviation with `ddof=1` (pandas `Series.std()`). -/
def rStd (l : List ℝ) : ℝ := Real.sqrt (rSqDevs l / ((l.length : ℝ) - 1))

/-- Modelled from the spec: `_utils._prepare_returns` is not under `src/`.  Per
the spec's SeriesPreparer, a non-zero annualized `risk_free` is de-annualized
using the periods-per-year count and subtracted from every return; the guard
for a non-zero rate with missing `periods` lives in `sharpe`/`sortino`
themselves (stats.py lines 289-290 and 340-341), which are modelled directly
below. -/
def prepare_returns (data : List ℝ) (rf : ℝ) (periods : Option ℕ) : List ℝ :=
  if rf = 0 then data
  else
    match periods with
    | some p => data.map (fun r => r - ((1 + rf) ^ ((p : ℝ))⁻¹ - 1))
    | none => data.map (fun r => r - rf)

/-- Model of `sharpe(returns, rf, periods, annualize, smart)` (stats.py lines 275-303):
raises when `rf != 0 and periods is None`, otherwise mean over (possibly
autocorrelation-penalized) standard deviation, annualized by
`sqrt(periods)`. -/
def sharpe (returns : List ℝ) (rf : ℝ) (periods : Option ℕ)
    (annualize smart : Bool) : Except String ℝ :=
  if rf ≠ 0 ∧ periods = none then
    Except.error ("Must provide periods if rf != 0")
  else
    let rs := prepare_returns returns rf periods
    let divisor := if smart then rStd rs * autocorr_penalty rs else rStd rs
    let res := rMean rs / divisor
    Except.ok (if annualize then
        res * Real.sqrt (match periods with | none => 1 | some p => (p : ℝ))
      else res)

/-- Model of `sortino(returns, rf, periods, annualize, smart)` (stats.py lines 330-357):
raises when `rf != 0 and periods is None`, otherwise mean over the downside
deviation `sqrt(sum(neg²)/n)` (possibly autocorrelation-penalized), annualized
by `sqrt(periods)`. -/
def sortino (returns : List ℝ) (rf : ℝ) (periods : Option ℕ)
    (annualize smart : Bool) : Except String ℝ :=
  if rf ≠ 0 ∧ periods = none then
    Except.error ("Must provide periods if rf != 0")
  else
    let rs := prepare_returns returns rf periods
    let downside0 := Real.sqrt
      (((rs.filter (fun r => if r < 0 then true else false)).map (fun r => r ^ 2)).sum /
        (rs.length : ℝ))
    let downside := if smart then downside0 * autocorr_penalty rs else downside0
    let res := rMean rs / downside
    Except.ok (if annualize then
        res * Real.sqrt (match periods with | none => 1 | some p => (p : ℝ))
      else res)

end

/-! Basic facts about the underwater mask and the transition extraction. -/

theorem uw_true_iff (dd : List ℚ) (i : ℕ) : uw dd i = true ↔ dd.getD i 0 ≠ 0 := by
  unfold uw; split <;> simp_all

theorem uw_false_iff (dd : List ℚ) (i : ℕ) : uw dd i = false ↔ dd.getD i 0 = 0 := by
  unfold uw; split <;> simp_all

theorem uw_append_lt (dd : List ℚ) (x : ℚ) {i : ℕ} (h : i < dd.length) :
    uw (dd ++ [x]) i = uw dd i := by
  unfold uw; rw [List.getD_append _ _ _ _ h]

theorem uw_append_last (dd : List ℚ) (x : ℚ) :
    uw (dd ++ [x]) dd.length = (if x = 0 then false else true) := by
  unfold uw
  rw [List.getD_append_right _ _ _ _ (le_refl _), Nat.sub_self]
  rfl

theorem uw_oob (dd : List ℚ) {i : ℕ} (h : dd.length ≤ i) : uw dd i = false := by
  unfold uw; rw [List.getD_eq_default _ _ h]; simp

theorem uw_true_lt_length (dd : List ℚ) {i : ℕ} (h : uw dd i = true) : i < dd.length := by
  by_contra hc
  rw [uw_oob dd (Nat.le_of_not_lt hc)] at h
  exact Bool.false_ne_true h

theorem mem_startIdx (dd : List ℚ) (i : ℕ) :
    i ∈ startIdx dd ↔ i < dd.length ∧ 1 ≤ i ∧ uw dd i = true ∧ uw dd (i - 1) = false := by
  unfold startIdx
  rw [List.mem_filter, List.mem_range]
  simp [Bool.and_assoc, and_assoc]

theorem mem_endIdx (dd : List ℚ) (i : ℕ) :
    i ∈ endIdx dd ↔ i < dd.length ∧ 1 ≤ i ∧ uw dd i = false ∧ uw dd (i - 1) = true := by
  unfold endIdx
  rw [List.mem_filter, List.mem_range]
  simp [Bool.and_assoc, and_assoc]

theorem filter_range_succ (p : ℕ → Bool) (n : ℕ) :
    (List.range (n + 1)).filter p = (List.range n).filter p ++ (if p n then [n] else []) := by
  rw [List.range_succ, List.filter_append]
  congr 1
  cases hpn : p n <;> simp [List.filter, hpn]

theorem startIdx_append (dd : List ℚ) (x : ℚ) :
    startIdx (dd ++ [x]) = startIdx dd ++
      (if decide (1 ≤ dd.length) && uw (dd ++ [x]) dd.length && !uw (dd ++ [x]) (dd.length - 1)
       then [dd.length] else []) := by
  unfold startIdx
  rw [show (dd ++ [x]).length = dd.length + 1 by simp, filter_range_succ]
  congr 1
  apply List.filter_congr
  intro a ha
  have halt : a < dd.length := List.mem_range.mp ha
  rw [uw_append_lt dd x halt, uw_append_lt dd x (by omega)]

theorem endIdx_append (dd : List ℚ) (x : ℚ) :
    endIdx (dd ++ [x]) = endIdx dd ++
      (if decide (1 ≤ dd.length) && !uw (dd ++ [x]) dd.length && uw (dd ++ [x]) (dd.length - 1)
       then [dd.length] else []) := by
  unfold endIdx
  rw [show (dd ++ [x]).length = dd.length + 1 by simp, filter_range_succ]
  congr 1
  apply List.filter_congr
  intro a ha
  have halt : a < dd.length := List.mem_range.mp ha
  rw [uw_append_lt dd x halt, uw_append_lt dd x (by omega)]

theorem refGo_append (i : ℕ) (l₁ l₂ : List ℚ) (st : List (ℕ × ℕ) × Option ℕ) :
    refGo i (l₁ ++ l₂) st = refGo (i + l₁.length) l₂ (refGo i l₁ st) := by
  induction l₁ generalizing i st with
  | nil => simp [refGo]
  | cons y ys ih =>
    obtain ⟨c, cur⟩ := st
    cases cur with
    | none =>
      show refGo i (y :: (ys ++ l₂)) (c, none) = _
      rw [refGo, refGo, ih]
      congr 1
      simp; omega
    | some s =>
      show refGo i (y :: (ys ++ l₂)) (c, some s) = _
      rw [refGo, refGo, ih]
      congr 1
      simp; omega

theorem refFold_append (dd : List ℚ) (x : ℚ) :
    refFold (dd ++ [x]) = refGo dd.length [x] (refFold dd) := by
  have h := refGo_append 0 dd [x] ([], none)
  simpa [refFold] using h

/-- The reference-scanner invariant holds after scanning any drawdown series. -/
theorem refInv_holds (dd : List ℚ) : RefInv dd (refFold dd) := by
  induction dd using List.reverseRecOn with
  | nil =>
    refine ⟨?_, ?_, ?_, ?_, ?_, ?_, ?_, ?_⟩ <;>
      simp [refFold, refGo, startIdx, endIdx, curToList, uw]
  | append_singleton dd x ih =>
    have hlen : (dd ++ [x]).length = dd.length + 1 := by simp
    rcases hfd : refFold dd with ⟨c, cur⟩
    rw [hfd] at ih
    by_cases hn0 : dd.length = 0
    · -- the base series is empty: compute everything on the singleton directly
      have hdd : dd = [] := List.length_eq_zero.mp hn0
      subst hdd
      by_cases hx : x = 0
      · refine ⟨?_, ?_, ?_, ?_, ?_, ?_, ?_, ?_⟩ <;>
          simp [refFold, refGo, startIdx, endIdx, curToList, uw, hx, List.range_succ,
            List.filter]
      · have hfx : refFold ([] ++ [x]) = ([], some 0) := by
          simp [refFold, refGo, hx]
        rw [hfx]
        have huw0 : uw [x] 0 = true := by
          simp [uw, hx]
        refine ⟨?_, ?_, ?_, ?_, ?_, ?_, ?_, ?_⟩
        · simp [endIdx, List.range_succ, List.filter]
        · simp [curToList, huw0, startIdx, List.range_succ, List.filter]
        · intro h; simp at h
        · intro s hs
          simp at hs
          subst hs
          refine ⟨by simp, Or.inl rfl, ?_⟩
          intro t _ ht2
          simp at ht2
          subst ht2
          simpa using huw0
        · intro p hp; simp at hp
        · simp
        · intro s _ p hp; simp at hp
        · intro t ht _
          simp at ht
          subst ht
          exact Or.inr ⟨0, rfl, le_refl 0⟩
    · have hn : 0 < dd.length := Nat.pos_of_ne_zero hn0
      have huw0 : uw (dd ++ [x]) 0 = uw dd 0 := uw_append_lt dd x hn
      have huwp : uw (dd ++ [x]) (dd.length - 1) = uw dd (dd.length - 1) :=
        uw_append_lt dd x (by omega)
      cases cur with
      | none =>
        by_cases hx : x = 0
        · -- case B: at high, stays closed
          have huwlast : uw (dd ++ [x]) dd.length = false := by
            rw [uw_append_last]; simp [hx]
          have huwprev : uw dd (dd.length - 1) = false := ih.cur_none rfl hn
          have hstart : startIdx (dd ++ [x]) = startIdx dd := by
            rw [startIdx_append]
            have hc : (decide (1 ≤ dd.length) && uw (dd ++ [x]) dd.length &&
                !uw (dd ++ [x]) (dd.length - 1)) = false := by
              rw [huwlast]; simp
            rw [hc]; simp
          have hend : endIdx (dd ++ [x]) = endIdx dd := by
            rw [endIdx_append]
            have hc : (decide (1 ≤ dd.length) && !uw (dd ++ [x]) dd.length &&
                uw (dd ++ [x]) (dd.length - 1)) = false := by
              rw [huwp, huwprev]; simp
            rw [hc]; simp
          rw [show refFold (dd ++ [x]) = (c, none) by
            rw [refFold_append, hfd]; simp [refGo, hx]]
          refine ⟨?_, ?_, ?_, ?_, ?_, ?_, ?_, ?_⟩
          · rw [hend]; exact ih.ends_eq
          · rw [huw0, hstart]; exact ih.starts_eq
          · intro _ _
            rw [hlen, Nat.add_sub_cancel]
            exact huwlast
          · intro s hs; simp at hs
          · intro p hp
            obtain ⟨h1, h2, h3, h4, h5⟩ := ih.closed p hp
            refine ⟨h1, by rw [hlen]; omega, ?_, ?_, ?_⟩
            · rcases h3 with h3 | h3
              · exact Or.inl h3
              · exact Or.inr (by rw [uw_append_lt dd x (by omega)]; exact h3)
            · rw [uw_append_lt dd x h2]; exact h4
            · intro t ht1 ht2
              rw [uw_append_lt dd x (by omega)]
              exact h5 t ht1 ht2
          · exact ih.ordered
          · intro s hs; simp at hs
          · intro t ht htu
            rw [hlen] at ht
            rcases Nat.lt_or_ge t dd.length with h | h
            · have htu' : uw dd t = true := by rw [← uw_append_lt dd x h]; exact htu
              rcases ih.cover t h htu' with ⟨p, hp, hw⟩ | ⟨s, hs, _⟩
              · exact Or.inl ⟨p, hp, hw⟩
              · simp at hs
            · have : t = dd.length := by omega
              subst this
              rw [huwlast] at htu
              exact absurd htu (by simp)
        · -- case A: opens a new episode at position dd.length
          have huwlast : uw (dd ++ [x]) dd.length = true := by
            rw [uw_append_last]; simp [hx]
          have huwprev : uw dd (dd.length - 1) = false := ih.cur_none rfl hn
          have hstart : startIdx (dd ++ [x]) = startIdx dd ++ [dd.length] := by
            rw [startIdx_append]
            have hc : (decide (1 ≤ dd.length) && uw (dd ++ [x]) dd.length &&
                !uw (dd ++ [x]) (dd.length - 1)) = true := by
              rw [huwlast, huwp, huwprev]
              simp
              omega
            rw [hc]
            simp
          have hend : endIdx (dd ++ [x]) = endIdx dd := by
            rw [endIdx_append]
            have hc : (decide (1 ≤ dd.length) && !uw (dd ++ [x]) dd.length &&
                uw (dd ++ [x]) (dd.length - 1)) = false := by
              rw [huwlast]; simp
            rw [hc]; simp
          rw [show refFold (dd ++ [x]) = (c, some dd.length) by
            rw [refFold_append, hfd]; simp [refGo, hx]]
          have hmapfst : c.map Prod.fst =
              (if uw dd 0 = true then 0 :: startIdx dd else startIdx dd) := by
            simpa [curToList] using ih.starts_eq
          refine ⟨?_, ?_, ?_, ?_, ?_, ?_, ?_, ?_⟩
          · rw [hend]; exact ih.ends_eq
          · show c.map Prod.fst ++ curToList (some dd.length) = _
            rw [huw0, hstart]
            simp only [curToList]
            rw [hmapfst]
            split <;> simp
          · intro hcontra; simp at hcontra
          · intro s hs
            simp only [Option.some_inj] at hs
            subst hs
            refine ⟨by rw [hlen]; omega, Or.inr (by rw [huwp]; exact huwprev), ?_⟩
            intro t ht1 ht2
            rw [hlen] at ht2
            have : t = dd.length := by omega
            subst this
            exact huwlast
          · intro p hp
            obtain ⟨h1, h2, h3, h4, h5⟩ := ih.closed p hp
            refine ⟨h1, by rw [hlen]; omega, ?_, ?_, ?_⟩
            · rcases h3 with h3 | h3
              · exact Or.inl h3
              · exact Or.inr (by rw [uw_append_lt dd x (by omega)]; exact h3)
            · rw [uw_append_lt dd x h2]; exact h4
            · intro t ht1 ht2
              rw [uw_append_lt dd x (by omega)]
              exact h5 t ht1 ht2
          · exact ih.ordered
          · intro s hs p hp
            simp only [Option.some_inj] at hs
            subst hs
            exact (ih.closed p hp).2.1
          · intro t ht htu
            rw [hlen] at ht
            rcases Nat.lt_or_ge t dd.length with h | h
            · have htu' : uw dd t = true := by rw [← uw_append_lt dd x h]; exact htu
              rcases ih.cover t h htu' with ⟨p, hp, hw⟩ | ⟨s, hs, _⟩
              · exact Or.inl ⟨p, hp, hw⟩
              · simp at hs
            · exact Or.inr ⟨dd.length, rfl, by omega⟩
      | some s =>
        obtain ⟨hs, hsb, hrun⟩ := ih.cur_some s rfl
        have huwn1 : uw dd (dd.length - 1) = true := hrun (dd.length - 1) (by omega) (by omega)
        by_cases hx : x = 0
        · -- case D: closes the open episode at position dd.length
          have huwlast : uw (dd ++ [x]) dd.length = false := by
            rw [uw_append_last]; simp [hx]
          have hstart : startIdx (dd ++ [x]) = startIdx dd := by
            rw [startIdx_append]
            have hc : (decide (1 ≤ dd.length) && uw (dd ++ [x]) dd.length &&
                !uw (dd ++ [x]) (dd.length - 1)) = false := by
              rw [huwlast]; simp
            rw [hc]; simp
          have hend : endIdx (dd ++ [x]) = endIdx dd ++ [dd.length] := by
            rw [endIdx_append]
            have hc : (decide (1 ≤ dd.length) && !uw (dd ++ [x]) dd.length &&
                uw (dd ++ [x]) (dd.length - 1)) = true := by
              rw [huwlast, huwp, huwn1]
              simp
              omega
            rw [hc]
            simp
          rw [show refFold (dd ++ [x]) = (c ++ [(s, dd.length)], none) by
            rw [refFold_append, hfd]; simp [refGo, hx]]
          refine ⟨?_, ?_, ?_, ?_, ?_, ?_, ?_, ?_⟩
          · rw [hend, ih.ends_eq]
            simp
          · show (c ++ [(s, dd.length)]).map Prod.fst ++ curToList none = _
            rw [huw0, hstart]
            simp only [curToList, List.map_append, List.append_nil]
            have := ih.starts_eq
            simp only [curToList] at this
            simpa using this
          · intro _ _
            rw [hlen, Nat.add_sub_cancel]
            exact huwlast
          · intro s' hs'; simp at hs'
          · intro p hp
            rcases List.mem_append.mp hp with hp | hp
            · obtain ⟨h1, h2, h3, h4, h5⟩ := ih.closed p hp
              refine ⟨h1, by rw [hlen]; omega, ?_, ?_, ?_⟩
              · rcases h3 with h3 | h3
                · exact Or.inl h3
                · exact Or.inr (by rw [uw_append_lt dd x (by omega)]; exact h3)
              · rw [uw_append_lt dd x h2]; exact h4
              · intro t ht1 ht2
                rw [uw_append_lt dd x (by omega)]
                exact h5 t ht1 ht2
            · simp only [List.mem_singleton] at hp
              subst hp
              refine ⟨hs, by rw [hlen]; omega, ?_, huwlast, ?_⟩
              · rcases hsb with h | h
                · exact Or.inl h
                · exact Or.inr (by rw [uw_append_lt dd x (by omega)]; exact h)
              · intro t ht1 ht2
                rw [uw_append_lt dd x (by omega)]
                exact hrun t ht1 (by omega)
          · rw [List.pairwise_append]
            refine ⟨ih.ordered, List.pairwise_singleton _ _, ?_⟩
            intro p hp q hq
            simp only [List.mem_singleton] at hq
            subst hq
            exact ih.cur_gt s rfl p hp
          · intro s' hs'; simp at hs'
          · intro t ht htu
            rw [hlen] at ht
            rcases Nat.lt_or_ge t dd.length with h | h
            · have htu' : uw dd t = true := by rw [← uw_append_lt dd x h]; exact htu
              rcases ih.cover t h htu' with ⟨p, hp, hw⟩ | ⟨s', hs', hle⟩
              · exact Or.inl ⟨p, List.mem_append.mpr (Or.inl hp), hw⟩
              · simp only [Option.some_inj] at hs'
                subst hs'
                exact Or.inl ⟨(s, dd.length), List.mem_append.mpr (Or.inr (by simp)),
                  hle, h⟩
            · have : t = dd.length := by omega
              subst this
              rw [huwlast] at htu
              exact absurd htu (by simp)
        · -- case C: stays underwater, episode remains open
          have huwlast : uw (dd ++ [x]) dd.length = true := by
            rw [uw_append_last]; simp [hx]
          have hstart : startIdx (dd ++ [x]) = startIdx dd := by
            rw [startIdx_append]
            have hc : (decide (1 ≤ dd.length) && uw (dd ++ [x]) dd.length &&
                !uw (dd ++ [x]) (dd.length - 1)) = false := by
              rw [huwp, huwn1]; simp
            rw [hc]; simp
          have hend : endIdx (dd ++ [x]) = endIdx dd := by
            rw [endIdx_append]
            have hc : (decide (1 ≤ dd.length) && !uw (dd ++ [x]) dd.length &&
                uw (dd ++ [x]) (dd.length - 1)) = false := by
              rw [huwlast]; simp
            rw [hc]; simp
          rw [show refFold (dd ++ [x]) = (c, some s) by
            rw [refFold_append, hfd]; simp [refGo, hx]]
          refine ⟨?_, ?_, ?_, ?_, ?_, ?_, ?_, ?_⟩
          · rw [hend]; exact ih.ends_eq
          · rw [huw0, hstart]; exact ih.starts_eq
          · intro hcontra; simp at hcontra
          · intro s' hs'
            simp only [Option.some_inj] at hs'
            subst hs'
            refine ⟨by rw [hlen]; omega, ?_, ?_⟩
            · rcases hsb with h | h
              · exact Or.inl h
              · exact Or.inr (by rw [uw_append_lt dd x (by omega)]; exact h)
            · intro t ht1 ht2
              rw [hlen] at ht2
              rcases Nat.lt_or_ge t dd.length with h | h
              · rw [uw_append_lt dd x h]
                exact hrun t ht1 h
              · have : t = dd.length := by omega
                subst this
                exact huwlast
          · intro p hp
            obtain ⟨h1, h2, h3, h4, h5⟩ := ih.closed p hp
            refine ⟨h1, by rw [hlen]; omega, ?_, ?_, ?_⟩
            · rcases h3 with h3 | h3
              · exact Or.inl h3
              · exact Or.inr (by rw [uw_append_lt dd x (by omega)]; exact h3)
            · rw [uw_append_lt dd x h2]; exact h4
            · intro t ht1 ht2
              rw [uw_append_lt dd x (by omega)]
              exact h5 t ht1 ht2
          · exact ih.ordered
          · intro s' hs' p hp
            simp only [Option.some_inj] at hs'
            subst hs'
            exact ih.cur_gt s rfl p hp
          · intro t ht htu
            rw [hlen] at ht
            rcases Nat.lt_or_ge t dd.length with h | h
            · have htu' : uw dd t = true := by rw [← uw_append_lt dd x h]; exact htu
              rcases ih.cover t h htu' with ⟨p, hp, hw⟩ | ⟨s', hs', hle⟩
              · exact Or.inl ⟨p, hp, hw⟩
              · exact Or.inr ⟨s', hs', hle⟩
            · exact Or.inr ⟨s, rfl, by omega⟩

/-! Equivalence of the transition-extraction pipeline with the reference
scanner, whenever at least one start is detected. -/

theorem zip_map_fst_snd (l : List (ℕ × ℕ)) :
    (l.map Prod.fst).zip (l.map Prod.snd) = l := (List.zip_of_prod rfl rfl).symm

theorem getLastD_cons_ne {l : List ℕ} (hl : l ≠ []) (a d : ℕ) :
    (a :: l).getLastD d = l.getLastD d := by
  rcases l with _ | ⟨b, m⟩
  · exact absurd rfl hl
  · rw [List.getLastD_cons, List.getLastD_cons, List.getLastD_cons]

theorem getLastD_maps (c : List (ℕ × ℕ)) (hc : c ≠ []) :
    ∃ p ∈ c, (c.map Prod.fst).getLastD 0 = p.1 ∧ (c.map Prod.snd).getLastD 0 = p.2 := by
  induction c with
  | nil => exact absurd rfl hc
  | cons q c' ih =>
    rcases c' with _ | ⟨r, c''⟩
    · exact ⟨q, by simp, by simp [List.getLastD_cons], by simp [List.getLastD_cons]⟩
    · obtain ⟨p, hp, h1, h2⟩ := ih (by simp)
      refine ⟨p, List.mem_cons_of_mem _ hp, ?_, ?_⟩
      · rw [List.map_cons, getLastD_cons_ne (by simp)]
        exact h1
      · rw [List.map_cons, getLastD_cons_ne (by simp)]
        exact h2

/-- On every series with a detected episode start, the code's
start/end extraction with its two boundary fix-ups produces exactly the
reference scanner's episodes. -/
theorem episodes_eq_ref (dd : List ℚ) (h : startIdx dd ≠ []) :
    episodes dd = episodesRef dd := by
  have inv := refInv_holds dd
  rcases hfd : refFold dd with ⟨c, cur⟩
  rw [hfd] at inv
  have hends : endIdx dd = c.map Prod.snd := inv.ends_eq
  have hstarts := inv.starts_eq
  simp only at hstarts hends
  rcases hsi : startIdx dd with _ | ⟨a, rest⟩
  · exact absurd hsi h
  rw [hsi] at hstarts
  cases c with
  | nil =>
    cases cur with
    | none =>
      exfalso
      simp only [curToList, List.map_nil, List.nil_append] at hstarts
      split at hstarts <;> simp at hstarts
    | some s =>
      simp only [curToList, List.map_nil, List.nil_append] at hstarts
      have hcase : uw dd 0 = false ∧ a = s ∧ rest = [] := by
        by_cases hu : uw dd 0 = true
        · rw [if_pos hu] at hstarts
          simp at hstarts
        · rw [if_neg hu] at hstarts
          obtain ⟨h1, h2⟩ := List.cons.injEq _ _ _ _ ▸ hstarts
          exact ⟨by simpa using hu, h1.symm, h2.symm⟩
      obtain ⟨_, ha, hrest⟩ := hcase
      subst ha hrest
      have hendnil : endIdx dd = [] := by simpa using hends
      unfold episodes
      rw [hsi, hendnil]
      unfold episodesRef
      rw [hfd]
      simp
  | cons p0 c' =>
    have hmc : (p0 :: c').map Prod.snd = p0.2 :: c'.map Prod.snd := rfl
    rw [hmc] at hends
    -- the first fix-up always rebuilds the full start list (with the open start)
    have hS1 : fixS a rest p0.2 = (p0 :: c').map Prod.fst ++ curToList cur := by
      by_cases hu : uw dd 0 = true
      · rw [if_pos hu] at hstarts
        have hba : p0.2 < a := by
          have htail : c'.map Prod.fst ++ curToList cur = a :: rest := by
            have := congrArg (fun l => l.tail) hstarts
            simpa using this
          rcases c' with _ | ⟨p1, c''⟩
          · cases cur with
            | none => simp [curToList] at htail
            | some s =>
              simp only [curToList, List.map_nil, List.nil_append] at htail
              have hgt := inv.cur_gt s rfl p0 (by simp)
              have has : s = a := by
                have := congrArg (fun l => l.head?) htail
                simpa using this
              omega
          · have ha2 : p1.1 = a := by
              have := congrArg (fun l => l.head?) htail
              simpa using this
            have := List.pairwise_cons.mp inv.ordered
            have hb := this.1 p1 (by simp)
            simpa [ha2] using hb
        rw [fixS, if_pos hba, hstarts]
      · rw [if_neg hu] at hstarts
        have ha1 : p0.1 = a := by
          have := congrArg (fun l => l.head?) hstarts
          simpa using this
        have hnba : ¬ p0.2 < a := by
          have := (inv.closed p0 (by simp)).1
          omega
        rw [fixS, if_neg hnba, hstarts]
    unfold episodes
    rw [hsi, hends]
    cases cur with
    | none =>
      -- the last closed episode ends after its start: no end is appended
      simp only [curToList, List.append_nil] at hS1
      obtain ⟨q, hq, hq1, hq2⟩ := getLastD_maps (p0 :: c') (by simp)
      have hnlt : ¬ ((p0.2 :: c'.map Prod.snd).getLastD 0 <
          (fixS a rest p0.2).getLastD 0) := by
        rw [hS1, ← hmc, hq1, hq2]
        have := (inv.closed q hq).1
        omega
      simp only [fixE]
      rw [if_neg hnlt, hS1, ← hmc, zip_map_fst_snd]
      unfold episodesRef
      rw [hfd]
    | some s =>
      -- an episode is still open: its start exceeds every end, so the last
      -- position is appended to the ends
      simp only [curToList] at hS1
      obtain ⟨q, hq, _, hq2⟩ := getLastD_maps (p0 :: c') (by simp)
      have hlt : (p0.2 :: c'.map Prod.snd).getLastD 0 <
          (fixS a rest p0.2).getLastD 0 := by
        rw [hS1, List.getLastD_concat, ← hmc, hq2]
        exact inv.cur_gt s rfl q hq
      simp only [fixE]
      rw [if_pos hlt, hS1, ← hmc]
      rw [List.zip_append (by simp), zip_map_fst_snd]
      unfold episodesRef
      rw [hfd]
      simp

theorem episodes_nil (dd : List ℚ) (h : startIdx dd = []) : episodes dd = [] := by
  unfold episodes
  rw [h]

theorem no_start_all_dry (dd : List ℚ) (hs : startIdx dd = []) (h0 : uw dd 0 = false) :
    ∀ t, uw dd t = false := by
  intro t
  induction t with
  | zero => exact h0
  | succ t ih =>
    by_contra hc
    have hut : uw dd (t + 1) = true := by simpa using hc
    have hlt : t + 1 < dd.length := uw_true_lt_length dd hut
    have hmem : (t + 1) ∈ startIdx dd :=
      (mem_startIdx dd (t + 1)).mpr ⟨hlt, by omega, hut, by simpa using ih⟩
    rw [hs] at hmem
    exact List.not_mem_nil _ hmem

theorem mkRow_start (dd : List ℚ) (p : ℕ × ℕ) : (mkRow dd p).start = p.1 := rfl

theorem mkRow_stop (dd : List ℚ) (p : ℕ × ℕ) : (mkRow dd p).stop = p.2 := rfl

theorem startIdx_ne_nil_length_pos (dd : List ℚ) (h : startIdx dd ≠ []) :
    0 < dd.length := by
  rcases hx : startIdx dd with _ | ⟨a, r⟩
  · exact absurd hx h
  · have := (mem_startIdx dd a).mp (hx ▸ List.mem_cons_self a r)
    omega

/-- Claim C1 (amended).  When at least one episode start is detected (an
underwater position whose predecessor is at-high), `drawdown_details`
synthesizes a start at the series' first position whenever the series begins
underwater, and an end at the series' last position whenever it ends
underwater.  When no start is detected — in particular on a series underwater
at every position — the result is empty, with nothing synthesized. -/
theorem drawdown_details_boundary_synthesis (dd : List ℚ) :
    (startIdx dd = [] → drawdown_details dd = []) ∧
    (startIdx dd ≠ [] →
      (uw dd 0 = true →
        (drawdown_details dd).head?.map (fun r => r.start) = some 0) ∧
      (uw dd (dd.length - 1) = true →
        (drawdown_details dd).getLast?.map (fun r => r.stop) = some (dd.length - 1))) := by
  constructor
  · intro h
    unfold drawdown_details
    rw [episodes_nil dd h]
    rfl
  · intro h
    have heq := episodes_eq_ref dd h
    have inv := refInv_holds dd
    rcases hfd : refFold dd with ⟨c, cur⟩
    rw [hfd] at inv
    constructor
    · intro hu0
      have hmap : (episodesRef dd).map Prod.fst = c.map Prod.fst ++ curToList cur := by
        unfold episodesRef
        rw [hfd]
        cases cur with
        | none => simp [curToList]
        | some s => simp [curToList]
      have hstarts := inv.starts_eq
      simp only at hstarts
      rw [if_pos hu0] at hstarts
      have hm2 : (episodes dd).map Prod.fst = 0 :: startIdx dd := by
        rw [heq, hmap, hstarts]
      unfold drawdown_details
      rw [List.head?_map, Option.map_map]
      have hcomp : ((fun r => r.start) ∘ mkRow dd) = Prod.fst := by
        funext p
        rfl
      rw [hcomp, ← List.head?_map, hm2]
      rfl
    · intro huL
      have hn : 0 < dd.length := startIdx_ne_nil_length_pos dd h
      cases cur with
      | none =>
        have := inv.cur_none rfl hn
        rw [this] at huL
        exact absurd huL (by simp)
      | some s =>
        have heref : episodesRef dd = c ++ [(s, dd.length - 1)] := by
          unfold episodesRef
          rw [hfd]
        unfold drawdown_details
        rw [List.getLast?_map, Option.map_map]
        have hcomp : ((fun r => r.stop) ∘ mkRow dd) = Prod.snd := by
          funext p
          rfl
        rw [hcomp, ← List.getLast?_map, heq, heref, List.map_append]
        simp

/-- Claim C2 (amended).  For a drawdown series beginning at-high (first value
0, as every `to_drawdown_series` output does), the episode windows of
`drawdown_details` are strictly ordered, their half-open `[start, stop)`
intervals are pairwise disjoint, and they cover exactly the underwater
positions other than the final one; a final underwater position (unrecovered
drawdown with a synthesized end) is excluded by the half-open reading. -/
theorem drawdown_details_coverage (dd : List ℚ) (h0 : dd.getD 0 0 = 0) :
    List.Pairwise (fun r q => r.stop < q.start) (drawdown_details dd) ∧
    (∀ r ∈ drawdown_details dd, r.start ≤ r.stop) ∧
    (∀ t, (∃ r ∈ drawdown_details dd, r.start ≤ t ∧ t < r.stop) ↔
      (t + 1 < dd.length ∧ uw dd t = true)) := by
  have hu0 : uw dd 0 = false := by
    unfold uw
    rw [if_pos h0]
  by_cases hs : startIdx dd = []
  · have hdry := no_start_all_dry dd hs hu0
    have hep : episodes dd = [] := episodes_nil dd hs
    unfold drawdown_details
    rw [hep]
    refine ⟨by simp, by simp, ?_⟩
    intro t
    simp [hdry t]
  · have heq := episodes_eq_ref dd hs
    have inv := refInv_holds dd
    rcases hfd : refFold dd with ⟨c, cur⟩
    rw [hfd] at inv
    have heref : episodesRef dd = c ++ synthTail dd.length cur := by
      unfold episodesRef
      rw [hfd]
      cases cur with
      | none => simp [synthTail]
      | some s => rfl
    have hsynth : ∀ p ∈ synthTail dd.length cur, ∃ s, cur = some s ∧ p = (s, dd.length - 1) := by
      intro p hp
      cases cur with
      | none => simp [synthTail] at hp
      | some s =>
        simp [synthTail] at hp
        exact ⟨s, rfl, hp⟩
    -- facts about the pair list
    have hpair : List.Pairwise (fun p q : ℕ × ℕ => p.2 < q.1) (episodes dd) := by
      rw [heq, heref, List.pairwise_append]
      refine ⟨inv.ordered, ?_, ?_⟩
      · cases cur <;> simp [synthTail]
      · intro p hp q hq
        obtain ⟨s, hcs, rfl⟩ := hsynth q hq
        exact inv.cur_gt s hcs p hp
    have hbounds : ∀ p ∈ episodes dd, p.1 ≤ p.2 := by
      intro p hp
      rw [heq, heref] at hp
      rcases List.mem_append.mp hp with hp | hp
      · exact le_of_lt (inv.closed p hp).1
      · obtain ⟨s, hcs, rfl⟩ := hsynth p hp
        have := (inv.cur_some s hcs).1
        simp
        omega
    have hcov : ∀ t, (∃ p ∈ episodes dd, p.1 ≤ t ∧ t < p.2) ↔
        (t + 1 < dd.length ∧ uw dd t = true) := by
      intro t
      constructor
      · rintro ⟨p, hp, ht1, ht2⟩
        rw [heq, heref] at hp
        rcases List.mem_append.mp hp with hp | hp
        · obtain ⟨hlt, hin, _, _, hrun⟩ := inv.closed p hp
          exact ⟨by omega, hrun t ht1 ht2⟩
        · obtain ⟨s, hcs, rfl⟩ := hsynth p hp
          obtain ⟨hsn, _, hrun⟩ := inv.cur_some s hcs
          simp only at ht1 ht2
          refine ⟨by omega, hrun t ht1 (by omega)⟩
      · rintro ⟨htn, htu⟩
        rcases inv.cover t (by omega) htu with ⟨p, hp, hw⟩ | ⟨s, hcur, hle⟩
        · exact ⟨p, by rw [heq, heref]; exact List.mem_append.mpr (Or.inl hp), hw⟩
        · have hcur2 : cur = some s := hcur
          refine ⟨(s, dd.length - 1), ?_, hle, by omega⟩
          rw [heq, heref, hcur2]
          simp [synthTail]
    -- transfer to the detail rows
    refine ⟨?_, ?_, ?_⟩
    · unfold drawdown_details
      rw [List.pairwise_map]
      exact hpair
    · intro r hr
      unfold drawdown_details at hr
      obtain ⟨p, hp, hpr⟩ := List.mem_map.mp hr
      rw [← hpr]
      exact hbounds p hp
    · intro t
      rw [← hcov t]
      constructor
      · rintro ⟨r, hr, h1, h2⟩
        unfold drawdown_details at hr
        obtain ⟨p, hp, hpr⟩ := List.mem_map.mp hr
        rw [← hpr] at h1 h2
        exact ⟨p, hp, h1, h2⟩
      · rintro ⟨p, hp, h1, h2⟩
        exact ⟨mkRow dd p, List.mem_map.mpr ⟨p, hp, rfl⟩, h1, h2⟩

/-- Claim C1, counterexample to the claim as stated: the series `[-1, -1]` is
underwater at every position, yet `drawdown_details` returns the empty
sequence — no episode with synthesized boundaries. -/
theorem drawdown_details_all_underwater_empty :
    drawdown_details [(-1 : ℚ), -1] = [] ∧
    uw [(-1 : ℚ), -1] 0 = true ∧ uw [(-1 : ℚ), -1] 1 = true := by
  refine ⟨by decide, by decide, by decide⟩

/-- Claim C1, witness: on `[-2, 0, -3]` (begins and ends underwater, with a
detected start at position 2) the first episode's start is the synthesized
position 0 and the last episode's end is the synthesized position 2. -/
theorem drawdown_details_boundary_synthesis_witness :
    (drawdown_details [(-2 : ℚ), 0, -3]).head?.map (fun r => r.start) = some 0 ∧
    (drawdown_details [(-2 : ℚ), 0, -3]).getLast?.map (fun r => r.stop) = some 2 := by
  have h := (drawdown_details_boundary_synthesis [(-2 : ℚ), 0, -3]).2 (by decide)
  exact ⟨h.1 (by decide), h.2 (by decide)⟩

/-- Claim C2, counterexample to the claim as stated: on `[0, -1, -1]` the
final position 2 is underwater but no `[start, stop)` window contains it (the
sole episode is `(1, 2)` with its end synthesized at the last position). -/
theorem drawdown_details_coverage_cex :
    uw [(0 : ℚ), -1, -1] 2 = true ∧
    ∀ r ∈ drawdown_details [(0 : ℚ), -1, -1], ¬(r.start ≤ 2 ∧ 2 < r.stop) := by
  refine ⟨by decide, by decide⟩

/-- Claim C2, witness: on `[0, -1, 0, -2, -3, 0, -4]` the rows are strictly
ordered and the underwater position 3 is covered by a window. -/
theorem drawdown_details_coverage_witness :
    List.Pairwise (fun r q => r.stop < q.start)
      (drawdown_details [(0 : ℚ), -1, 0, -2, -3, 0, -4]) ∧
    ∃ r ∈ drawdown_details [(0 : ℚ), -1, 0, -2, -3, 0, -4], r.start ≤ 3 ∧ 3 < r.stop := by
  have h := drawdown_details_coverage [(0 : ℚ), -1, 0, -2, -3, 0, -4] (by decide)
  exact ⟨h.1, (h.2.2 3).mpr (by decide)⟩

/-! The 99%-trimmed max drawdown column (claim C3). -/

theorem mkRow_maxDrawdown99 (dd : List ℚ) (p : ℕ × ℕ) :
    (mkRow dd p).maxDrawdown99 =
      (listMin? ((remove_outliers ((ddSlice dd p.1 p.2).map (fun v => -v)) (99 / 100)).map
        (fun v => -v))).map (· * 100) := rfl

theorem quantile99_window : seriesQuantile [(1 : ℚ), 2, 3, 4, 6] (99 / 100) = 148 / 25 := by
  simp only [seriesQuantile]
  have hf : Int.floor ((99 : ℚ) / 100 * ((([(1 : ℚ), 2, 3, 4, 6]).length : ℚ) - 1)) = 3 := by
    norm_num
  have hc : Int.ceil ((99 : ℚ) / 100 * ((([(1 : ℚ), 2, 3, 4, 6]).length : ℚ) - 1)) = 4 := by
    rw [Int.ceil_eq_iff]
    norm_num
  rw [hf, hc, show Int.toNat 3 = 3 from rfl, show Int.toNat 4 = 4 from rfl]
  norm_num [List.insertionSort, List.orderedInsert, List.getD]

theorem quantile25_window : seriesQuantile [(1 : ℚ), 2, 3, 4, 6] (1 / 4) = 2 := by
  simp only [seriesQuantile]
  have hf : Int.floor ((1 : ℚ) / 4 * ((([(1 : ℚ), 2, 3, 4, 6]).length : ℚ) - 1)) = 1 := by
    norm_num
  have hc : Int.ceil ((1 : ℚ) / 4 * ((([(1 : ℚ), 2, 3, 4, 6]).length : ℚ) - 1)) = 1 := by
    rw [Int.ceil_eq_iff]
    norm_num
  rw [hf, hc, show Int.toNat 1 = 1 from rfl]
  norm_num [List.insertionSort, List.orderedInsert, List.getD]

theorem quantile75_window : seriesQuantile [(1 : ℚ), 2, 3, 4, 6] (3 / 4) = 4 := by
  simp only [seriesQuantile]
  have hf : Int.floor ((3 : ℚ) / 4 * ((([(1 : ℚ), 2, 3, 4, 6]).length : ℚ) - 1)) = 3 := by
    norm_num
  have hc : Int.ceil ((3 : ℚ) / 4 * ((([(1 : ℚ), 2, 3, 4, 6]).length : ℚ) - 1)) = 3 := by
    rw [Int.ceil_eq_iff]
    norm_num
  rw [hf, hc, show Int.toNat 3 = 3 from rfl]
  norm_num [List.insertionSort, List.orderedInsert, List.getD]

/-- Claim C3, counterexample to the claim as stated: on the drawdown series
`[0, -1, -2, -3, -4, -6]` (one window, positions 1-5) the reported
99%-trimmed max drawdown is `-400` (the deepest value `-6` falls at or above
the 0.99 quantile `5.92` of the negated window and is cut), while the Tukey
IQR fences `[Q1 - 1.5 IQR, Q3 + 1.5 IQR] = [-1, 7]` of the negated window
exclude nothing, giving `-600`. -/
theorem drawdown_details_trim_cex :
    (drawdown_details [(0 : ℚ), -1, -2, -3, -4, -6]).map (fun r => r.maxDrawdown99) ≠
    (episodes [(0 : ℚ), -1, -2, -3, -4, -6]).map
      (fun p => iqrFenceTrimmedMin (ddSlice [(0 : ℚ), -1, -2, -3, -4, -6] p.1 p.2)) := by
  have hep : episodes [(0 : ℚ), -1, -2, -3, -4, -6] = [(1, 5)] := by decide
  have hsl : ddSlice [(0 : ℚ), -1, -2, -3, -4, -6] 1 5 = [-1, -2, -3, -4, -6] := by decide
  have hneg : ([(-1 : ℚ), -2, -3, -4, -6]).map (fun v => -v) = [1, 2, 3, 4, 6] := by decide
  have hrot : remove_outliers [(1 : ℚ), 2, 3, 4, 6] (99 / 100) = [1, 2, 3, 4] := by
    unfold remove_outliers
    rw [quantile99_window]
    norm_num [List.filter]
  have hlhs : (drawdown_details [(0 : ℚ), -1, -2, -3, -4, -6]).map
      (fun r => r.maxDrawdown99) = [some (-400)] := by
    unfold drawdown_details
    rw [hep]
    simp only [List.map_cons, List.map_nil, mkRow_maxDrawdown99]
    rw [hsl, hneg, hrot]
    norm_num [listMin?, min_def]
  have hrhs : (episodes [(0 : ℚ), -1, -2, -3, -4, -6]).map
      (fun p => iqrFenceTrimmedMin (ddSlice [(0 : ℚ), -1, -2, -3, -4, -6] p.1 p.2)) =
      [some (-600)] := by
    rw [hep]
    simp only [List.map_cons, List.map_nil]
    rw [hsl]
    simp only [iqrFenceTrimmedMin]
    rw [hneg, quantile25_window, quantile75_window]
    norm_num [List.filter, listMin?, min_def]
  rw [hlhs, hrhs]
  simp

/-- Claim C3 (amended).  The reported 99%-trimmed max drawdown of every window
equals the minimum of the window after excluding exactly those values whose
negation is at or above the 0.99 linear-interpolation quantile of the negated
window (`remove_outliers`' strict quantile cutoff), scaled by 100 — not the
Tukey IQR-fence rule the spec describes. -/
theorem drawdown_details_trim_spec (dd : List ℚ) :
    (drawdown_details dd).map (fun r => r.maxDrawdown99) =
    (episodes dd).map (fun p =>
      (listMin? ((ddSlice dd p.1 p.2).filter (fun v =>
        if -v < seriesQuantile ((ddSlice dd p.1 p.2).map (fun u => -u)) (99 / 100)
        then true else false))).map (· * 100)) := by
  unfold drawdown_details
  rw [List.map_map]
  apply List.map_congr_left
  intro p _
  show (mkRow dd p).maxDrawdown99 = _
  rw [mkRow_maxDrawdown99]
  congr 1
  unfold remove_outliers
  rw [List.filter_map, List.map_map]
  have hid : ((fun v : ℚ => -v) ∘ (fun v : ℚ => -v)) = id := by
    funext v
    simp
  rw [hid, List.map_id]
  rfl

/-! Equity-curve and drawdown-series facts (claims C6, C7, C10). -/

theorem scanl_mul_getLast? (l : List ℚ) (a : ℚ) :
    (l.scanl (· * ·) a).getLast? = some (a * l.prod) := by
  induction l generalizing a with
  | nil => simp [List.scanl]
  | cons x xs ih =>
    rw [List.scanl_cons]
    rcases hsc : List.scanl (· * ·) (a * x) xs with _ | ⟨y, ys⟩
    · have := congrArg List.length hsc
      rw [List.length_scanl] at this
      simp at this
    · rw [List.singleton_append, List.getLast?_cons_cons, ← hsc, ih]
      rw [List.prod_cons, mul_assoc]

/-- Claim C7: the terminal compounded return `comp` is the last entry of the
rolling compounded series `compsum`. -/
theorem comp_eq_last_compsum (returns : List ℚ) (h : returns ≠ []) :
    (compsum returns).getLast? = some (comp returns) := by
  unfold compsum comp cumprod
  rcases returns with _ | ⟨r, rs⟩
  · exact absurd rfl h
  rw [List.map_cons, List.scanl_cons, List.singleton_append, List.tail_cons,
    List.getLast?_map, scanl_mul_getLast?]
  rw [List.prod_cons]
  simp [mul_assoc]

/-- Claim C7, witness at the concrete series `[1, 3]`. -/
theorem comp_eq_last_compsum_witness :
    (compsum [(1 : ℚ), 3]).getLast? = some (comp [(1 : ℚ), 3]) :=
  comp_eq_last_compsum [(1 : ℚ), 3] (by decide)

theorem runningMax_length (l : List ℚ) : (runningMax l).length = l.length := by
  induction l with
  | nil => rfl
  | cons x xs ih => simp [runningMax, ih]

theorem getD_map_max (x : ℚ) (l : List ℚ) (i : ℕ) (h : i < l.length) :
    (l.map (fun y => max x y)).getD i 0 = max x (l.getD i 0) := by
  induction l generalizing i with
  | nil => simp at h
  | cons a as ih =>
    cases i with
    | zero => simp
    | succ i => simpa using ih i (by simpa using h)

theorem runningMax_ub (l : List ℚ) : ∀ i j, j ≤ i → i < l.length →
    l.getD j 0 ≤ (runningMax l).getD i 0 := by
  induction l with
  | nil => intro i j _ hi; simp at hi
  | cons x xs ih =>
    intro i j hji hi
    cases i with
    | zero =>
      have hj : j = 0 := by omega
      subst hj
      simp [runningMax]
    | succ i =>
      have hi2 : i < xs.length := by simpa using hi
      rw [show runningMax (x :: xs) = x :: (runningMax xs).map (fun y => max x y) from rfl,
        List.getD_cons_succ, getD_map_max x _ i (by rwa [runningMax_length])]
      cases j with
      | zero =>
        rw [List.getD_cons_zero]
        exact le_max_left _ _
      | succ j =>
        rw [List.getD_cons_succ]
        exact le_trans (ih i j (by omega) hi2) (le_max_right _ _)

theorem runningMax_mem (l : List ℚ) : ∀ i, i < l.length →
    ∃ j, j ≤ i ∧ (runningMax l).getD i 0 = l.getD j 0 := by
  induction l with
  | nil => intro i hi; simp at hi
  | cons x xs ih =>
    intro i hi
    cases i with
    | zero => exact ⟨0, le_refl 0, by simp [runningMax]⟩
    | succ i =>
      have hi2 : i < xs.length := by simpa using hi
      obtain ⟨j, hj, hjeq⟩ := ih i hi2
      rw [show runningMax (x :: xs) = x :: (runningMax xs).map (fun y => max x y) from rfl,
        List.getD_cons_succ, getD_map_max x _ i (by rwa [runningMax_length])]
      rcases le_total x ((runningMax xs).getD i 0) with hc | hc
      · exact ⟨j + 1, by omega, by rw [max_eq_right hc, hjeq, List.getD_cons_succ]⟩
      · exact ⟨0, by omega, by rw [max_eq_left hc]; simp⟩

theorem scanl_mul_pos (xs : List ℚ) : ∀ b : ℚ, 0 < b → (∀ x ∈ xs, 0 < x) →
    ∀ v ∈ xs.scanl (· * ·) b, 0 < v := by
  induction xs with
  | nil =>
    intro b hb _ v hv
    simp [List.scanl] at hv
    rw [hv]
    exact hb
  | cons x xs ih =>
    intro b hb hall v hv
    rw [List.scanl_cons] at hv
    rcases List.mem_cons.mp hv with rfl | hv
    · exact hb
    · exact ih (b * x) (mul_pos hb (hall x (by simp)))
        (fun y hy => hall y (by simp [hy])) v hv

theorem prepare_prices_pos (returns : List ℚ) (h : ∀ r ∈ returns, -1 < r) :
    ∀ v ∈ prepare_prices returns, 0 < v := by
  intro v hv
  unfold prepare_prices cumprod at hv
  have hv2 : v ∈ (returns.map (fun r => 1 + r)).scanl (· * ·) 1 := List.mem_of_mem_tail hv
  refine scanl_mul_pos _ 1 one_pos ?_ v hv2
  intro x hx
  obtain ⟨r, hr, rfl⟩ := List.mem_map.mp hx
  have := h r hr
  linarith

theorem getD_zipWith (f : ℚ → ℚ → ℚ) (l1 l2 : List ℚ) (i : ℕ)
    (h1 : i < l1.length) (h2 : i < l2.length) :
    (List.zipWith f l1 l2).getD i 0 = f (l1.getD i 0) (l2.getD i 0) := by
  induction l1 generalizing l2 i with
  | nil => simp at h1
  | cons a as ih =>
    cases l2 with
    | nil => simp at h2
    | cons b bs =>
      cases i with
      | zero => simp
      | succ i => simpa using ih bs i (by simpa using h1) (by simpa using h2)

theorem replace_zero_id (l : List ℚ) : l.map (fun x => if x = 0 then 0 else x) = l := by
  have hfun : (fun x : ℚ => if x = 0 then 0 else x) = id := by
    funext x
    split <;> simp_all
  rw [hfun, List.map_id]

/-- Claim C6: for returns above −1 the drawdown series is nonpositive, and an
entry is 0 exactly where the equity curve attains its running maximum. -/
theorem to_drawdown_series_nonpos (returns : List ℚ) (h : ∀ r ∈ returns, -1 < r) :
    ∀ i, i < returns.length →
      (to_drawdown_series returns).getD i 0 ≤ 0 ∧
      ((to_drawdown_series returns).getD i 0 = 0 ↔
        ∀ j, j ≤ i →
          (prepare_prices returns).getD j 0 ≤ (prepare_prices returns).getD i 0) := by
  intro i hi
  have hlenP : (prepare_prices returns).length = returns.length := by
    unfold prepare_prices cumprod
    rw [List.length_tail, List.length_scanl, List.length_map]
    simp
  have hpos : ∀ j, j < (prepare_prices returns).length →
      0 < (prepare_prices returns).getD j 0 := by
    intro j hj
    rw [List.getD_eq_getElem _ _ hj]
    exact prepare_prices_pos returns h _ (List.getElem_mem hj)
  have hrmlen : (runningMax (prepare_prices returns)).length =
      (prepare_prices returns).length := runningMax_length _
  have hiP : i < (prepare_prices returns).length := by omega
  have hdd : (to_drawdown_series returns).getD i 0 =
      (prepare_prices returns).getD i 0 /
        (runningMax (prepare_prices returns)).getD i 0 - 1 := by
    unfold to_drawdown_series ddOfPrices
    rw [replace_zero_id]
    exact getD_zipWith _ _ _ i hiP (by omega)
  have hrm_pos : 0 < (runningMax (prepare_prices returns)).getD i 0 := by
    obtain ⟨j, hj, hjeq⟩ := runningMax_mem _ i hiP
    rw [hjeq]
    exact hpos j (by omega)
  have hub : (prepare_prices returns).getD i 0 ≤
      (runningMax (prepare_prices returns)).getD i 0 :=
    runningMax_ub _ i i (le_refl i) hiP
  constructor
  · rw [hdd]
    have hle1 : (prepare_prices returns).getD i 0 /
        (runningMax (prepare_prices returns)).getD i 0 ≤ 1 := by
      rw [div_le_one hrm_pos]
      exact hub
    linarith
  · rw [hdd]
    constructor
    · intro h0 j hj
      have hdiv : (prepare_prices returns).getD i 0 /
          (runningMax (prepare_prices returns)).getD i 0 = 1 := by linarith
      have heq := (div_eq_one_iff_eq (ne_of_gt hrm_pos)).mp hdiv
      have hju := runningMax_ub _ i j hj hiP
      linarith
    · intro hmax
      obtain ⟨j, hj, hjeq⟩ := runningMax_mem _ i hiP
      have hge : (runningMax (prepare_prices returns)).getD i 0 ≤
          (prepare_prices returns).getD i 0 := by
        rw [hjeq]
        exact hmax j hj
      have heq : (prepare_prices returns).getD i 0 =
          (runningMax (prepare_prices returns)).getD i 0 := le_antisymm hub hge
      rw [heq, div_self (ne_of_gt hrm_pos)]
      norm_num

/-- Claim C6, witness at `[1, -1/2, 2]`, position 1 (underwater: the equity
curve `[2, 1, 3]` is below its running maximum there). -/
theorem to_drawdown_series_nonpos_witness :
    (to_drawdown_series [(1 : ℚ), -1/2, 2]).getD 1 0 ≤ 0 ∧
    ((to_drawdown_series [(1 : ℚ), -1/2, 2]).getD 1 0 = 0 ↔
      ∀ j, j ≤ 1 →
        (prepare_prices [(1 : ℚ), -1/2, 2]).getD j 0 ≤
          (prepare_prices [(1 : ℚ), -1/2, 2]).getD 1 0) :=
  to_drawdown_series_nonpos [(1 : ℚ), -1/2, 2] (by norm_num) 1 (by norm_num)

theorem listMin?_map_sub (l : List ℚ) (c : ℚ) :
    listMin? (l.map (fun x => x - c)) = (listMin? l).map (fun x => x - c) := by
  induction l with
  | nil => rfl
  | cons x xs ih =>
    simp only [List.map_cons, listMin?]
    rw [ih]
    cases hxs : listMin? xs with
    | none => simp
    | some m => simp [min_sub_sub_right]

/-- Claim C10: the scalar `max_drawdown` equals the minimum of the full
drawdown series, on non-empty strictly positive price series. -/
theorem max_drawdown_eq_min_dd (prices : List ℚ) (h1 : prices ≠ [])
    (h2 : ∀ p ∈ prices, 0 < p) :
    max_drawdown prices = listMin? (to_drawdown_series_prices prices) := by
  unfold max_drawdown to_drawdown_series_prices ddOfPrices
  rw [replace_zero_id]
  have hzip : List.zipWith (fun p m => p / m - 1) prices (runningMax prices) =
      (List.zipWith (fun p m => p / m) prices (runningMax prices)).map
        (fun x => x - 1) := by
    rw [List.map_zipWith]
  rw [hzip, listMin?_map_sub]

/-- Claim C10, witness at the price series `[4, 2, 3]` (max drawdown −1/2). -/
theorem max_drawdown_eq_min_dd_witness :
    max_drawdown [(4 : ℚ), 2, 3] = listMin? (to_drawdown_series_prices [(4 : ℚ), 2, 3]) :=
  max_drawdown_eq_min_dd [(4 : ℚ), 2, 3] (by decide) (by decide)

/-! Value-at-risk and conditional value-at-risk (claims C4, C9). -/

/-- Claim C4: `conditional_value_at_risk` returns the mean of the returns
strictly below the VaR threshold when at least one return lies below it, and
the VaR value itself when none does — for every quantile function `ppf` and
standard-deviation function `std`. -/
theorem cvar_below_mean_or_var (ppf : ℚ → ℚ → ℚ → ℚ) (std : List ℚ → ℚ)
    (returns : List ℚ) (sigma confidence : ℚ) :
    ((∃ r ∈ returns, r < value_at_risk ppf std returns sigma confidence) →
      conditional_value_at_risk ppf std returns sigma confidence =
        listMean (returns.filter (fun r =>
          if r < value_at_risk ppf std returns sigma confidence then true else false))) ∧
    ((∀ r ∈ returns, ¬ r < value_at_risk ppf std returns sigma confidence) →
      conditional_value_at_risk ppf std returns sigma confidence =
        value_at_risk ppf std returns sigma confidence) := by
  simp only [conditional_value_at_risk]
  constructor
  · rintro ⟨r, hr, hlt⟩
    have hne : returns.filter (fun r =>
        if r < value_at_risk ppf std returns sigma confidence then true else false) ≠ [] := by
      intro hempty
      have hmem : r ∈ returns.filter (fun r =>
          if r < value_at_risk ppf std returns sigma confidence then true else false) :=
        List.mem_filter.mpr ⟨hr, by simp [hlt]⟩
      rw [hempty] at hmem
      exact List.not_mem_nil _ hmem
    rw [if_neg (by simpa [List.isEmpty_iff] using hne)]
  · intro hall
    have hempty : returns.filter (fun r =>
        if r < value_at_risk ppf std returns sigma confidence then true else false) = [] := by
      rw [List.filter_eq_nil_iff]
      intro a ha
      simp [hall a ha]
    rw [if_pos (by rw [hempty]; rfl)]

/-- Claim C4, witness: with the constant quantile `0`, the returns `[-1, 1]`
have one value below the threshold and the CVaR is the mean of that slice. -/
theorem cvar_below_mean_or_var_witness :
    conditional_value_at_risk (fun _ _ _ => (0 : ℚ)) (fun _ => 1) [-1, 1] 1 (19/20) =
      listMean ([-1, 1].filter (fun r =>
        if r < value_at_risk (fun _ _ _ => (0 : ℚ)) (fun _ => 1) [-1, 1] 1 (19/20)
        then true else false)) := by
  refine (cvar_below_mean_or_var (fun _ _ _ => (0 : ℚ)) (fun _ => 1) [-1, 1] 1 (19/20)).1
    ⟨-1, by simp, ?_⟩
  have hv : value_at_risk (fun _ _ _ => (0 : ℚ)) (fun _ => 1) [-1, 1] 1 (19/20) = 0 := rfl
  rw [hv]
  norm_num

/-- Claim C9 (amended): a confidence level in `(1, 100]` is rescaled by 100,
so `value_at_risk` at `c` agrees with `value_at_risk` at `c/100` — but only on
that range; above 100 the two disagree because the rescaling is applied only
once. -/
theorem value_at_risk_rescale (ppf : ℚ → ℚ → ℚ → ℚ) (std : List ℚ → ℚ)
    (returns : List ℚ) (sigma confidence : ℚ) (h1 : 1 < confidence)
    (h2 : confidence ≤ 100) :
    value_at_risk ppf std returns sigma confidence =
      value_at_risk ppf std returns sigma (confidence / 100) := by
  simp only [value_at_risk]
  have hc1 : ¬ (1 < confidence / 100) := by
    rw [not_lt, div_le_one (by norm_num : (0:ℚ) < 100)]
    exact h2
  rw [if_pos h1, if_neg hc1]

/-- Claim C9, counterexample to the claim as stated: at confidence 200 the
rescaling is applied once, yielding quantile argument `1 - 2 = -1`, while at
`200/100 = 2` it rescales again to `2/100`, yielding `1 - 1/50 = 49/50`. -/
theorem value_at_risk_rescale_cex :
    value_at_risk (fun q _ _ => q) (fun _ => 1) [0] 1 200 ≠
      value_at_risk (fun q _ _ => q) (fun _ => 1) [0] 1 (200 / 100) := by
  have hL : value_at_risk (fun q _ _ => q) (fun _ => 1) [0] 1 200 = -1 := by
    norm_num [value_at_risk]
  have hR : value_at_risk (fun q _ _ => q) (fun _ => 1) [0] 1 (200 / 100) = 49/50 := by
    norm_num [value_at_risk]
  rw [hL, hR]
  norm_num

/-- Claim C9, witness at confidence 95. -/
theorem value_at_risk_rescale_witness :
    value_at_risk (fun q _ _ => q) (fun _ => 1) [0] 1 95 =
      value_at_risk (fun q _ _ => q) (fun _ => 1) [0] 1 (95 / 100) :=
  value_at_risk_rescale (fun q _ _ => q) (fun _ => 1) [0] 1 95 (by norm_num) (by norm_num)

/-! The autocorrelation penalty (claim C5) and the `rf`/`periods` guard
(claim C8). -/

theorem Icc_one_succ (m : ℕ) : Finset.Icc 1 (m + 1) = insert (m + 1) (Finset.Icc 1 m) := by
  ext k
  simp only [Finset.mem_Icc, Finset.mem_insert]
  omega

theorem sum_range1_eq_Icc (m : ℕ) (f : ℕ → ℝ) :
    ((List.range' 1 m).map f).sum = Finset.sum (Finset.Icc 1 m) f := by
  induction m with
  | zero => simp
  | succ m ih =>
    rw [List.range'_concat, List.map_append, List.sum_append, ih, Icc_one_succ,
      Finset.sum_insert (by simp)]
    simp [add_comm]

/-- Claim C5 (amended): `autocorr_penalty` equals
`sqrt(1 + 2 Σ_{k=1}^{n-1} ((n-k)/n) |ρ|^k)` where `ρ` is the signed lag-1
Pearson correlation — the code takes its absolute value (`np.abs`), so the
spec's signed ρ must be replaced by `|ρ|`. -/
theorem autocorr_penalty_spec (returns : List ℝ) (h : 2 ≤ returns.length) :
    autocorr_penalty returns =
      Real.sqrt (1 + 2 * Finset.sum (Finset.Icc 1 (returns.length - 1)) (fun k =>
        ((returns.length - k : ℕ) : ℝ) / (returns.length : ℝ) *
          |pearson returns.dropLast returns.tail| ^ k)) := by
  simp only [autocorr_penalty]
  rw [sum_range1_eq_Icc]

/-- Claim C5, witness at the series `[1, 0]`. -/
theorem autocorr_penalty_spec_witness :
    autocorr_penalty [(1 : ℝ), 0] =
      Real.sqrt (1 + 2 * Finset.sum (Finset.Icc 1 (([(1 : ℝ), 0]).length - 1)) (fun k =>
        ((([(1 : ℝ), 0]).length - k : ℕ) : ℝ) / ((([(1 : ℝ), 0]).length : ℕ) : ℝ) *
          |pearson ([(1 : ℝ), 0]).dropLast ([(1 : ℝ), 0]).tail| ^ k)) :=
  autocorr_penalty_spec [(1 : ℝ), 0] (by decide)

/-- Claim C5, counterexample to the claim as stated: on `[1, -1, 1]` the
lag-1 correlation is `ρ = -1`; the code uses `|ρ| = 1` and returns `sqrt 3`,
while the claim's signed formula gives `sqrt(1 + 2(-1/3)) = sqrt(1/3)`. -/
theorem autocorr_penalty_signed_cex :
    autocorr_penalty [(1 : ℝ), -1, 1] ≠
      Real.sqrt (1 + 2 * Finset.sum (Finset.Icc 1 2) (fun k =>
        ((3 - k : ℕ) : ℝ) / 3 *
          pearson (List.dropLast [(1 : ℝ), -1, 1]) (List.tail [(1 : ℝ), -1, 1]) ^ k)) := by
  have hx : List.dropLast [(1 : ℝ), -1, 1] = [1, -1] := rfl
  have hy : List.tail [(1 : ℝ), -1, 1] = [-1, 1] := rfl
  have hmx : rMean [(1 : ℝ), -1] = 0 := by norm_num [rMean]
  have hmy : rMean [(-1 : ℝ), 1] = 0 := by norm_num [rMean]
  have hsx : rSqDevs [(1 : ℝ), -1] = 2 := by norm_num [rSqDevs, rMean]
  have hsy : rSqDevs [(-1 : ℝ), 1] = 2 := by norm_num [rSqDevs, rMean]
  have hp : pearson [(1 : ℝ), -1] [(-1 : ℝ), 1] = -1 := by
    simp only [pearson]
    rw [hsx, hsy, hmx, hmy]
    rw [show (2:ℝ) * 2 = 2^2 by norm_num, Real.sqrt_sq (by norm_num : (0:ℝ) ≤ 2)]
    norm_num [List.zipWith]
  have hL : autocorr_penalty [(1 : ℝ), -1, 1] = Real.sqrt 3 := by
    simp only [autocorr_penalty]
    rw [hx, hy, hp]
    norm_num [List.range']
  have hR : Real.sqrt (1 + 2 * Finset.sum (Finset.Icc 1 2) (fun k =>
      ((3 - k : ℕ) : ℝ) / 3 *
        pearson (List.dropLast [(1 : ℝ), -1, 1]) (List.tail [(1 : ℝ), -1, 1]) ^ k)) =
      Real.sqrt (1/3) := by
    rw [hx, hy, hp, show (2:ℕ) = 1 + 1 from rfl, Icc_one_succ,
      Finset.sum_insert (by simp), Finset.Icc_self, Finset.sum_singleton]
    norm_num
  rw [hL, hR]
  intro heq
  have e1 : (Real.sqrt 3) ^ 2 = 3 := Real.sq_sqrt (by norm_num)
  have e2 : (Real.sqrt (1/3)) ^ 2 = (1:ℝ)/3 := Real.sq_sqrt (by norm_num)
  rw [heq, e2] at e1
  norm_num at e1

/-- Claim C8: `sharpe` and `sortino` fail (raise) exactly when the risk-free
rate is non-zero and `periods` is unspecified; with `periods` supplied or a
zero rate they return a value. -/
theorem sharpe_sortino_rf_guard (returns : List ℝ) (rf : ℝ) (periods : Option ℕ)
    (annualize smart : Bool) :
    ((sharpe returns rf periods annualize smart).isOk = false ↔
      (rf ≠ 0 ∧ periods = none)) ∧
    ((sortino returns rf periods annualize smart).isOk = false ↔
      (rf ≠ 0 ∧ periods = none)) := by
  by_cases hc : rf ≠ 0 ∧ periods = none
  · constructor <;> simp [sharpe, sortino, hc, Except.isOk, Except.toBool]
  · constructor <;> simp [sharpe, sortino, hc, Except.isOk, Except.toBool]

end QuantStats
